import Mathlib

/-!
Verification of the schema-migration core (`edb/schema/delta.py`) against its
natural-language specification.  Each section shallowly embeds the part of the
source a claim is about; theorems at the end settle the claims.
-/

namespace CmdModel

/-!
Model of `Command` sub-command management (`edb/schema/delta.py`, class
`Command`): the ordered sub-command sets `ops` / `before_ops` and the
`_attrs` lookup table (attribute name -> `AlterObjectProperty` sub-command),
together with `add`, `discard` and `replace_all`.

A sub-command is either a set-attribute command (`AlterObjectProperty`,
carrying the property name it sets) or any other non-group command.  The
`cid` field models Python object identity; two distinct constructed commands
have distinct `cid`s.  `CommandGroup` splicing in `add` is not modelled (the
claims' sequences use leaf commands only).
-/

inductive SubCmd where
  | attr (cid : Nat) (prop : String)
  | other (cid : Nat)
deriving DecidableEq, Repr

def SubCmd.propOf : SubCmd → Option String
  | .attr _ p => some p
  | .other _ => none

structure CommandState where
  ops : List SubCmd
  beforeOps : List SubCmd
  attrs : List (String × SubCmd)
deriving DecidableEq, Repr

/-- Python dict lookup `d.get(p)`. -/
def dictLookup (p : String) : List (String × SubCmd) → Option SubCmd
  | [] => none
  | (q, v) :: rest => if q = p then some v else dictLookup p rest

/-- Python dict assignment `d[p] = v`: replaces in place, else appends. -/
def dictInsert (p : String) (v : SubCmd) :
    List (String × SubCmd) → List (String × SubCmd)
  | [] => [(p, v)]
  | (q, w) :: rest =>
    if q = p then (p, v) :: rest else (q, w) :: dictInsert p v rest

/-- Python dict `d.pop(p)` with no default: `none` models the `KeyError`. -/
def dictPop (p : String) :
    List (String × SubCmd) → Option (List (String × SubCmd))
  | [] => none
  | (q, w) :: rest =>
    if q = p then some rest else (dictPop p rest).map (fun d => (q, w) :: d)

/-- `OrderedSet.add`: appends if not already present. -/
def osAdd (c : SubCmd) (l : List SubCmd) : List SubCmd :=
  if c ∈ l then l else l ++ [c]

/-- `Command.add` (delta.py:580): registers an `AlterObjectProperty` in the
`_attrs` table and adds the command to `ops`. -/
def addCmd (st : CommandState) (c : SubCmd) : CommandState :=
  match c with
  | .attr i p =>
    { st with attrs := dictInsert p (.attr i p) st.attrs,
              ops := osAdd (.attr i p) st.ops }
  | .other i => { st with ops := osAdd (.other i) st.ops }

/-- `Command.discard` (delta.py:600): removes from `ops` and `before_ops`;
for an `AlterObjectProperty` also `self._attrs.pop(command.property)`, which
raises `KeyError` (modelled as `none`) if the property has no table entry. -/
def discardCmd (st : CommandState) (c : SubCmd) : Option CommandState :=
  let ops' := st.ops.erase c
  let before' := st.beforeOps.erase c
  match c with
  | .attr _ p =>
    (dictPop p st.attrs).map (fun d => ⟨ops', before', d⟩)
  | .other _ => some ⟨ops', before', st.attrs⟩

/-- `Command.replace_all` (delta.py:595): clears `ops` and `_attrs` (not
`before_ops`), then `add`s each given command. -/
def replaceAllCmd (st : CommandState) (cs : List SubCmd) : CommandState :=
  cs.foldl addCmd { st with ops := [], attrs := [] }

inductive Action where
  | add (c : SubCmd)
  | discard (c : SubCmd)
  | replaceAll (cs : List SubCmd)
deriving DecidableEq, Repr

def runAction (st : CommandState) : Action → Option CommandState
  | .add c => some (addCmd st c)
  | .discard c => discardCmd st c
  | .replaceAll cs => some (replaceAllCmd st cs)

def runActions (st : CommandState) : List Action → Option CommandState
  | [] => some st
  | a :: rest =>
    match runAction st a with
    | some st' => runActions st' rest
    | none => none

def initCommand : CommandState := ⟨[], [], []⟩

/-- The table the spec claims `_attrs` always equals: property name ->
set-attribute sub-command, one entry per set-attribute command in `ops`. -/
def attrTable (ops : List SubCmd) : List (String × SubCmd) :=
  ops.filterMap (fun c =>
    match c with
    | .attr i p => some (p, .attr i p)
    | .other _ => none)

def inSync (st : CommandState) : Prop := st.attrs = attrTable st.ops

instance (st : CommandState) : Decidable (inSync st) := by
  unfold inSync
  infer_instance

/-- Safety of a single `add`: an added set-attribute command's property has no
distinct live setter in `ops`. -/
def safeAdd (st : CommandState) : SubCmd → Bool
  | .attr i p =>
    st.ops.all (fun c => decide (c.propOf = some p → c = .attr i p))
  | .other _ => true

/-- Safety of a single `discard`: a discarded set-attribute command is the
live table entry for its property. -/
def safeDiscard (st : CommandState) : SubCmd → Bool
  | .attr i p => decide (dictLookup p st.attrs = some (.attr i p))
  | .other _ => true

/-- No two distinct set-attribute commands in the list share a property. -/
def distinctAttrProps : List SubCmd → Bool
  | [] => true
  | c :: rest =>
    (match c with
     | .attr i p => rest.all (fun c' => decide (c'.propOf = some p → c' = .attr i p))
     | .other _ => true)
    && distinctAttrProps rest

def safeAction (st : CommandState) : Action → Bool
  | .add c => safeAdd st c
  | .discard c => safeDiscard st c
  | .replaceAll cs => distinctAttrProps cs

def safeRun (st : CommandState) : List Action → Bool
  | [] => true
  | a :: rest =>
    safeAction st a &&
      match runAction st a with
      | some st' => safeRun st' rest
      | none => false

end CmdModel

namespace CtxModel

/-!
Model of `CommandContext.in_deletion` (delta.py:932).  The context stack is a
Python list: `push` appends, so the last elements are the innermost frames.
`in_deletion` scans `self.stack[:-offset]` for a frame whose command is a
`DeleteObject`.
-/

inductive Frame where
  | deleteOp (cid : Nat)
  | otherOp (cid : Nat)
deriving DecidableEq, Repr

def Frame.isDelete : Frame → Bool
  | .deleteOp _ => true
  | .otherOp _ => false

/-- Python slice `stack[:-offset]`: since `-0 == 0`, it is `stack[:0] = []`
when `offset = 0`; otherwise all but the last `offset` elements. -/
def sliceDropLast (stack : List Frame) (offset : Nat) : List Frame :=
  if offset = 0 then [] else stack.take (stack.length - offset)

/-- `CommandContext.in_deletion(offset=0)`:
`any(isinstance(ctx.op, DeleteObject) for ctx in self.stack[:-offset])`. -/
def inDeletion (stack : List Frame) (offset : Nat) : Bool :=
  (sliceDropLast stack offset).any Frame.isDelete

end CtxModel

namespace RootModel

/-!
Model of `DeltaRoot.apply` (delta.py:1070): sub-commands are applied in four
phases — `CreateModule` ops, then `AlterModule` ops, then every sub-command
that is none of `CreateModule`/`AlterModule`/`DeleteCollectionType`, then
`DeleteCollectionType` ops — threading the schema through each application.
`interp` abstracts the sub-commands' own `apply` methods (external command
classes); `get_subcommands()` lists prerequisites before ordinary ops.
-/

inductive OpKind where
  | createModule
  | alterModule
  | deleteCollectionType
  | otherOp
deriving DecidableEq, Repr

structure DOp where
  kind : OpKind
  cid : Nat
deriving DecidableEq, Repr

structure DeltaRootState where
  beforeOps : List DOp
  ops : List DOp
deriving DecidableEq, Repr

/-- `Command.get_subcommands()` with no filters: prerequisites, then `ops`. -/
def subcommands (r : DeltaRootState) : List DOp := r.beforeOps ++ r.ops

/-- The `not isinstance(objop, (CreateModule, AlterModule,
DeleteCollectionType))` filter of the third loop. -/
def isOrdinary (o : DOp) : Bool :=
  !(o.kind == OpKind.createModule) && !(o.kind == OpKind.alterModule)
    && !(o.kind == OpKind.deleteCollectionType)

/-- `DeltaRoot.apply`, with `interp` standing for each sub-command's own
`apply(schema, context)`. -/
def deltaRootApply {S : Type} (interp : DOp → S → S)
    (r : DeltaRootState) (s : S) : S :=
  let s₁ := ((subcommands r).filter
    (fun o => o.kind == OpKind.createModule)).foldl (fun sc op => interp op sc) s
  let s₂ := ((subcommands r).filter
    (fun o => o.kind == OpKind.alterModule)).foldl (fun sc op => interp op sc) s₁
  let s₃ := ((subcommands r).filter isOrdinary).foldl
    (fun sc op => interp op sc) s₂
  ((subcommands r).filter
    (fun o => o.kind == OpKind.deleteCollectionType)).foldl
    (fun sc op => interp op sc) s₃

/-- The visit order `DeltaRoot.apply` actually uses. -/
def applyOrder (r : DeltaRootState) : List DOp :=
  (subcommands r).filter (fun o => o.kind == OpKind.createModule)
    ++ (subcommands r).filter (fun o => o.kind == OpKind.alterModule)
    ++ (subcommands r).filter isOrdinary
    ++ (subcommands r).filter (fun o => o.kind == OpKind.deleteCollectionType)

/-- A root whose insertion order differs from the phased apply order. -/
def exampleRoot : DeltaRootState :=
  ⟨[], [⟨OpKind.deleteCollectionType, 0⟩, ⟨OpKind.createModule, 1⟩]⟩

end RootModel

namespace Lifecycle

/-!
Models of the object-command lifecycle paths the claims are about:
`CreateObject.command_for_ast_node` / `CreateObject.apply` (C5),
`DeleteObject._delete_finalize` (C6), `DeleteObject.apply` (C7) and the
rename-cascade guard of `RenameObject._rename_begin` / `_canonicalize` (C8).

The schema store is an external collaborator; it is reduced to exactly the
surface these paths read: `get(name)`, `get_referrers(obj)` and
`delete(obj)`.  Objects are identified by `Nat` ids.
-/

structure Schema where
  objs : List (String × Nat)
  refs : List (Nat × Nat)
deriving DecidableEq, Repr

/-- `schema.get(classname, default=None)`: name resolution. -/
def Schema.getByName (s : Schema) (name : String) : Option Nat :=
  (s.objs.find? (fun e => e.1 == name)).map Prod.snd

/-- `schema.get_referrers(obj)`: reverse-reference lookup. -/
def Schema.getReferrers (s : Schema) (oid : Nat) : List Nat :=
  (s.refs.filter (fun e => e.2 == oid)).map Prod.fst

/-- `schema.delete(obj)`: removes the object from the store. -/
def Schema.deleteObj (s : Schema) (oid : Nat) : Schema :=
  ⟨s.objs.filter (fun e => !(e.2 == oid)), s.refs⟩

inductive CmdClass where
  | createClass
  | alterClass
deriving DecidableEq, Repr

/-- What `CreateObject.command_for_ast_node` (delta.py:1891) reads from the
AST node: `sdl_alter_if_exists` (SDL mode) and `create_if_not_exists`
(DDL `IF NOT EXISTS`) are distinct flags. -/
structure CreateAstNode where
  sdlAlterIfExists : Bool
  createIfNotExists : Bool
deriving DecidableEq, Repr

/-- `CreateObject.command_for_ast_node`: delegates to the registered Alter
class only when the AST node has `sdl_alter_if_exists` set and the
probe-resolved classname already exists in the schema; otherwise it keeps the
Create class. -/
def commandForAstNode (astnode : CreateAstNode) (schema : Schema)
    (classname : String) : CmdClass :=
  if astnode.sdlAlterIfExists ∧ (schema.getByName classname).isSome then
    CmdClass.alterClass
  else
    CmdClass.createClass

/-- `CreateObject._cmd_tree_from_ast` (delta.py:1933): the command's
`if_not_exists` flag is copied from the AST's `create_if_not_exists`. -/
def ifNotExistsFromAst (astnode : CreateAstNode) : Bool :=
  astnode.createIfNotExists

structure CreateCmd where
  cid : Nat
  classname : String
  ifNotExists : Bool
  canonical : Bool
deriving DecidableEq, Repr

/-- `CreateObject.apply` (delta.py:2035).  The create path proper
(`_create_begin` / `_create_innards` / `_create_finalize`) is abstracted as
`doCreate`; the modelled part is the `if_not_exists` short-circuit: when the
name resolves, discard self from the parent (if a parent context exists and
the command is not canonical) and return the schema unchanged.  The result is
the schema paired with the parent's op list (`none` = no parent context). -/
def createApply (doCreate : Schema → Schema) (cmd : CreateCmd)
    (schema : Schema) (parentOps : Option (List Nat)) :
    Schema × Option (List Nat) :=
  if cmd.ifNotExists ∧ (schema.getByName cmd.classname).isSome then
    match parentOps with
    | some pops =>
      if ¬cmd.canonical then (schema, some (pops.erase cmd.cid))
      else (schema, some pops)
    | none => (schema, none)
  else
    (doCreate schema, parentOps)

/-- What `DeleteObject._delete_finalize` reads from the context:
`context.canonical`, `context.disable_dep_verification` and, for
`context.is_deleting(ref)`, the objects of the `DeleteObject` frames on the
stack. -/
structure DelCtx where
  canonical : Bool
  disableDepVerification : Bool
  deletingIds : List Nat
deriving DecidableEq, Repr

/-- The `ref_strs` list of `DeleteObject._delete_finalize` (delta.py:2573-
2585): unless the context is canonical or dependency verification is
disabled, every referrer that is not itself being deleted in this context
and is a blocking reference (`isBlocking r` abstracts
`ref.is_blocking_ref(orig_schema, self.scls)`). -/
def blockingRefs (ctx : DelCtx) (schema : Schema) (scls : Nat)
    (isBlocking : Nat → Bool) : List Nat :=
  if ¬ctx.canonical ∧ ¬ctx.disableDepVerification then
    (schema.getReferrers scls).filter
      (fun r => !(ctx.deletingIds.contains r) && isBlocking r)
  else []

instance {ε α : Type} [DecidableEq ε] [DecidableEq α] :
    DecidableEq (Except ε α)
  | .error a, .error b =>
    if h : a = b then isTrue (h ▸ rfl)
    else isFalse (fun he => h (Except.error.inj he))
  | .error _, .ok _ => isFalse (fun he => Except.noConfusion he)
  | .ok _, .error _ => isFalse (fun he => Except.noConfusion he)
  | .ok a, .ok b =>
    if h : a = b then isTrue (h ▸ rfl)
    else isFalse (fun he => h (Except.ok.inj he))

/-- `DeleteObject._delete_finalize` (delta.py:2568): if any blocking
referrer was collected, fail with an error enumerating all of them, else
remove the object from the schema. -/
def deleteFinalize (ctx : DelCtx) (schema : Schema) (scls : Nat)
    (isBlocking : Nat → Bool) : Except (List Nat) Schema :=
  if (blockingRefs ctx schema scls isBlocking).isEmpty then
    Except.ok (schema.deleteObj scls)
  else
    Except.error (blockingRefs ctx schema scls isBlocking)

structure DeleteCmd where
  cid : Nat
  classname : String
  ifUnused : Bool
  canonical : Bool
deriving DecidableEq, Repr

/-- `DeleteObject.apply` (delta.py:2601).  `get_object` failure (the target
does not resolve) is `none`; the delete pipeline after the `if_unused`
short-circuit (`_delete_begin` / innards / finalize) is abstracted as
`doDelete` (`none` = raised error).  When the command is non-canonical, has
`if_unused`, and the object has referrers: discard self from the parent (if a
parent context exists) and return the schema unchanged. -/
def deleteApply (doDelete : Schema → Option Schema) (cmd : DeleteCmd)
    (schema : Schema) (parentOps : Option (List Nat)) :
    Option (Schema × Option (List Nat)) :=
  match schema.getByName cmd.classname with
  | none => none
  | some scls =>
    if ¬cmd.canonical ∧ cmd.ifUnused
        ∧ !(schema.getReferrers scls).isEmpty then
      match parentOps with
      | some pops => some (schema, some (pops.erase cmd.cid))
      | none => some (schema, none)
    else
      (doDelete schema).map (fun s' => (s', parentOps))

/-- `CommandContext.store_value` on the `_values` dict; `get_value` only ever
tests presence of the `('renamecanon', cmd)` key (the stored value is
always `True`), so the store is modelled as the list of stored keys. -/
def storeValue (vals : List (String × Nat)) (k : String × Nat) :
    List (String × Nat) :=
  vals ++ [k]

/-- `CommandContext.get_value(('renamecanon', cmd))` as a truth test
(Python `key in dict`). -/
def getValueB (vals : List (String × Nat)) (k : String × Nat) : Bool :=
  decide (k ∈ vals)

/-- `RenameObject._canonicalize` (delta.py:2198): builds the cascade commands
(abstracted as `cascade`: the per-refdict sub-renames, which depend only on
the schema and object, not on the value store) and records
`('renamecanon', self) -> True` in the context value store. -/
def renameCanonicalize (cascade : List Nat) (vals : List (String × Nat))
    (cmd : Nat) : List Nat × List (String × Nat) :=
  (cascade, storeValue vals ("renamecanon", cmd))

/-- The guarded cascade construction in `RenameObject._rename_begin`
(delta.py:2144-2153): when the context is not canonical and
`context.get_value(('renamecanon', self))` is unset, compute the cascade
(whose commands the caller `update`s into itself) and set the guard;
otherwise produce nothing and leave the store unchanged. -/
def renameBeginCascade (cascade : List Nat) (vals : List (String × Nat))
    (cmd : Nat) (ctxCanonical : Bool) : List Nat × List (String × Nat) :=
  if ¬ctxCanonical then
    if ¬getValueB vals ("renamecanon", cmd) then
      renameCanonicalize cascade vals cmd
    else ([], vals)
  else ([], vals)

end Lifecycle

namespace Diff

/-!
Model of `delta_objects` (delta.py:52-199) and `_sort_by_inheritance`
(delta.py:202-216).

A schema object is reduced to what `delta_objects` reads from it: `o.id`
(identity), `o.get_name(schema)`, `o.hash_criteria(schema)`, and — for
inheriting classes — the names of `o.get_bases(schema).objects(schema)`.
Old objects are only ever read through `old_schema` and new objects through
`new_schema`, so those per-schema values are carried on the object itself.
Python name strings (compared lexicographically) are abstracted to a
linearly ordered type of names, `Nat`.  Similarity scores (Python floats,
only ever compared, never computed with) are rationals; the threshold `0.6`
is `mkRat 6 10`.
-/

structure Obj where
  oid : Nat
  name : Nat
  hsh : Nat
  bases : List Nat
deriving DecidableEq, Repr

/-- The externally supplied guidance: bans keyed by name (the `sclass`
component of the Python keys is fixed per `delta_objects` call). -/
structure Guidance where
  bannedAlters : List (Nat × Nat)
  bannedCreations : List Nat
  bannedDeletions : List Nat
deriving DecidableEq, Repr

/-- The inputs of one `delta_objects` call: the old and new object sets,
`y.compare(x, ...)` as `sim y x` (the external comparator), the context's
guidance, and whether `sclass` is an `InheritingObject` subclass. -/
structure DiffInput where
  old : List Obj
  new : List Obj
  sim : Obj → Obj → ℚ
  guidance : Option Guidance
  inheriting : Bool

/-- `unchanged = set(oldkeys.values()) & set(newkeys.values())`
(delta.py:64-67). -/
def unchangedHashes (inp : DiffInput) : List Nat :=
  (inp.old.map Obj.hsh).filter (fun h => (inp.new.map Obj.hsh).contains h)

/-- delta.py:69-72: old objects whose hash criteria are not unchanged. -/
def oldFiltered (inp : DiffInput) : List Obj :=
  inp.old.filter (fun o => !((unchangedHashes inp).contains o.hsh))

/-- delta.py:73-76: new objects whose hash criteria are not unchanged. -/
def newFiltered (inp : DiffInput) : List Obj :=
  inp.new.filter (fun o => !((unchangedHashes inp).contains o.hsh))

/-- `common_names = oldnames & newnames` (delta.py:78-80). -/
def commonNames (inp : DiffInput) : List Nat :=
  ((oldFiltered inp).map Obj.name).filter
    (fun n => ((newFiltered inp).map Obj.name).contains n)

/-- `itertools.product(new, old)` (delta.py:83). -/
def productPairs (inp : DiffInput) : List (Obj × Obj) :=
  (newFiltered inp).flatMap (fun x => (oldFiltered inp).map (fun y => (x, y)))

/-- The sort key of delta.py:84: `pair[0].get_name(new_schema) not in
common_names` (`False` sorts first). -/
def pairKey (inp : DiffInput) (p : Obj × Obj) : Bool :=
  !((commonNames inp).contains p.1.name)

/-- Key-wise `≤` on pairs (`False < True`), the order of the stable
`sorted(...)` at delta.py:82-85. -/
def pairLe (inp : DiffInput) (p q : Obj × Obj) : Prop :=
  pairKey inp p = false ∨ pairKey inp q = true

instance (inp : DiffInput) : DecidableRel (pairLe inp) := fun p q => by
  unfold pairLe
  infer_instance

/-- delta.py:82-85 (`sorted` is a stable sort by `pairKey`). -/
def pairsSorted (inp : DiffInput) : List (Obj × Obj) :=
  List.insertionSort (pairLe inp) (productPairs inp)

/-- delta.py:89-106: the full similarity matrix; pairs banned by
`guidance.banned_alters` score `0.0` exactly. -/
def fullMatrix (inp : DiffInput) : List (Obj × Obj × ℚ) :=
  (pairsSorted inp).map (fun p =>
    let similarity :=
      match inp.guidance with
      | some g =>
        if (p.2.name, p.1.name) ∈ g.bannedAlters then 0 else inp.sim p.2 p.1
      | none => inp.sim p.2 p.1
    (p.1, p.2, similarity))

/-- The `0.6` similarity threshold (delta.py:144,154,174). -/
def simThreshold : ℚ := mkRat 6 10

/-- The sort order of delta.py:108-114: ascending in the key
`(1.0 - similarity, x name, y name)` compared lexicographically.  Since
`1 - s₁ ≤ 1 - s₂ ↔ s₂ ≤ s₁` the score comparison is written flipped
(see `matrixLe_iff_key`): descending by score, ties broken by ascending
(new name, old name). -/
def matrixLe (t u : Obj × Obj × ℚ) : Prop :=
  u.2.2 < t.2.2
    ∨ (u.2.2 = t.2.2
        ∧ (t.1.name < u.1.name
            ∨ (t.1.name = u.1.name ∧ t.2.1.name ≤ u.2.1.name)))

instance : DecidableRel matrixLe := fun t u => by
  unfold matrixLe
  infer_instance

/-- `full_matrix.sort(key=...)` (delta.py:108-114); Python's sort is stable,
as is insertion sort. -/
def sortedMatrix (inp : DiffInput) : List (Obj × Obj × ℚ) :=
  List.insertionSort matrixLe (fullMatrix inp)

/-- The greedy matching loop of delta.py:116-123: walk the sorted matrix and
claim each pair whose new side and old side are both unclaimed.  Entries are
`(x, (similarity, y))`, mirroring `comparison_map[x] = (similarity, y)`. -/
def greedy : List (Obj × Obj × ℚ) → List Obj → List Obj → List (Obj × ℚ × Obj)
  | [], _, _ => []
  | (x, y, s) :: rest, seenX, seenY =>
    if x ∉ seenX ∧ y ∉ seenY then
      (x, s, y) :: greedy rest (seenX ++ [x]) (seenY ++ [y])
    else
      greedy rest seenX seenY

def comparisonMap (inp : DiffInput) : List (Obj × ℚ × Obj) :=
  greedy (sortedMatrix inp) [] []

/-- `comparison_map[x]` (the keys are unique by construction). -/
def cmLookup (cm : List (Obj × ℚ × Obj)) (x : Obj) : Option (ℚ × Obj) :=
  (cm.find? (fun e => e.1 == x)).map (fun e => e.2)

/-- Readiness test of the topological sort: no other remaining object is
among `x`'s bases. -/
def topoReady (rem : List Obj) (x : Obj) : Bool :=
  !(rem.any (fun o => (x.bases.contains o.name) && !(o == x)))

/-- Modelled from the spec: `edb.common.topological.sort` (not under `src/`)
emits dependencies (here: bases, per `_sort_by_inheritance`) before
dependents, tolerating unresolved edges and cycles (`allow_unresolved`);
leftover cyclic objects are emitted as-is. -/
def topoStep : Nat → List Obj → List Obj
  | 0, rem => rem
  | n + 1, rem =>
    match rem.find? (topoReady rem) with
    | some x => x :: topoStep n (rem.erase x)
    | none => rem

/-- `_sort_by_inheritance` (delta.py:202-216): topological sort with
`deps = x.get_bases(schema).objects(schema)`. -/
def sortByInheritance (objs : List Obj) : List Obj :=
  topoStep objs.length objs

/-- True when the topological sort completes without hitting the
`allow_unresolved` fallback (no cycles among the given objects). -/
def topoOk : Nat → List Obj → Bool
  | 0, rem => rem.isEmpty
  | n + 1, rem =>
    if rem.isEmpty then true
    else
      match rem.find? (topoReady rem) with
      | some x => topoOk n (rem.erase x)
      | none => false

/-- delta.py:127-141: the order in which matched new objects are visited for
alter generation — inheritance order over the `comparison_map` keys for
inheriting classes, else dict insertion order. -/
def orderX (inp : DiffInput) : List Obj :=
  if inp.inheriting then
    sortByInheritance ((comparisonMap inp).map (fun e => e.1))
  else
    (comparisonMap inp).map (fun e => e.1)

/-- The commands `delta_objects` emits, by name:
`y.as_alter_delta(other=x, ...)` carries the old and new object names. -/
inductive DeltaCmd where
  | createCmd (name : Nat)
  | alterCmd (oldName newName : Nat)
  | deleteCmd (name : Nat)
deriving DecidableEq, Repr

/-- delta.py:142-152: matched pairs with `0.6 < s < 1.0` become Alter
commands, in `orderX` order. -/
def altersOf (inp : DiffInput) : List DeltaCmd :=
  (orderX inp).filterMap (fun x =>
    match cmLookup (comparisonMap inp) x with
    | some (s, y) =>
      if simThreshold < s ∧ s < 1 then some (.alterCmd y.name x.name)
      else none
    | none => none)

/-- Whether `x` is in `{x for x, (s, _) in comparison_map.items() if s > 0.6}`
(delta.py:154). -/
def matchedNewAbove (inp : DiffInput) (x : Obj) : Bool :=
  (comparisonMap inp).any (fun e => e.1 == x && decide (simThreshold < e.2.1))

/-- Whether `y` is in `{y for _, (s, y) in comparison_map.items() if s > 0.6}`
(delta.py:174). -/
def matchedOldAbove (inp : DiffInput) (y : Obj) : Bool :=
  (comparisonMap inp).any (fun e => e.2.2 == y && decide (simThreshold < e.2.1))

/-- `created = new - {matched with s > 0.6}` (delta.py:154); `OrderedSet`
difference preserves the order of the left operand. -/
def createdList (inp : DiffInput) : List Obj :=
  (newFiltered inp).filter (fun x => !(matchedNewAbove inp x))

/-- delta.py:156-169: Create commands, checked against
`guidance.banned_creations`. -/
def createdOf (inp : DiffInput) : List DeltaCmd :=
  (createdList inp).filterMap (fun x =>
    match inp.guidance with
    | some g =>
      if x.name ∈ g.bannedCreations then none else some (.createCmd x.name)
    | none => some (.createCmd x.name))

/-- `deleted = old - {matched with s > 0.6}` (delta.py:174). -/
def deletedList (inp : DiffInput) : List Obj :=
  (oldFiltered inp).filter (fun y => !(matchedOldAbove inp y))

/-- delta.py:176-182: deletes are ordered by `_sort_by_inheritance` over the
old schema for inheriting classes. -/
def deletedOrder (inp : DiffInput) : List Obj :=
  if inp.inheriting then sortByInheritance (deletedList inp)
  else deletedList inp

/-- delta.py:184-197: Delete commands, checked against
`guidance.banned_deletions`. -/
def deletedOf (inp : DiffInput) : List DeltaCmd :=
  (deletedOrder inp).filterMap (fun y =>
    match inp.guidance with
    | some g =>
      if y.name ∈ g.bannedDeletions then none else some (.deleteCmd y.name)
    | none => some (.deleteCmd y.name))

/-- The full command sequence of the returned `DeltaRoot`: creates are
`delta.add`ed first (delta.py:156-169), then `delta.update(alters)`
(delta.py:171), then deletes (delta.py:184-197). -/
def deltaObjects (inp : DiffInput) : List DeltaCmd :=
  createdOf inp ++ altersOf inp ++ deletedOf inp

end Diff


namespace Diff

/-- Concrete diff input for the delete-ordering claim: old contains D
(name 30, derived from B) and B (name 31), new is empty, so both become
Delete commands. -/
def c2cInp : DiffInput :=
  ⟨[⟨0, 30, 1, [31]⟩, ⟨1, 31, 2, []⟩], [], fun _ _ => 0, none, true⟩

/-- Concrete new/old objects whose similarity is exactly the 0.6
threshold. -/
def c3wX : Obj := ⟨1, 20, 200, []⟩

def c3wY : Obj := ⟨0, 10, 100, []⟩

def c3wInp : DiffInput :=
  ⟨[c3wY], [c3wX], fun _ _ => simThreshold, none, false⟩

end Diff

namespace CmdModel

theorem dictInsert_lookup_self {p : String} {v : SubCmd} :
    ∀ {d : List (String × SubCmd)}, dictLookup p d = some v →
      dictInsert p v d = d := by
  intro d
  induction d with
  | nil => intro h; simp [dictLookup] at h
  | cons e rest ih =>
    intro h
    obtain ⟨q, w⟩ := e
    by_cases hq : q = p
    · subst hq
      simp [dictLookup] at h
      simp [dictInsert, h]
    · simp [dictLookup, hq] at h
      simp [dictInsert, hq, ih h]

theorem dictInsert_lookup_none {p : String} (v : SubCmd) :
    ∀ {d : List (String × SubCmd)}, dictLookup p d = none →
      dictInsert p v d = d ++ [(p, v)] := by
  intro d
  induction d with
  | nil => intro _; simp [dictInsert]
  | cons e rest ih =>
    intro h
    obtain ⟨q, w⟩ := e
    by_cases hq : q = p
    · subst hq; simp [dictLookup] at h
    · simp [dictLookup, hq] at h
      simp [dictInsert, hq, ih h]

theorem attrTable_append (l₁ l₂ : List SubCmd) :
    attrTable (l₁ ++ l₂) = attrTable l₁ ++ attrTable l₂ := by
  simp [attrTable, List.filterMap_append]

theorem attrTable_cons_attr (j : Nat) (q : String) (rest : List SubCmd) :
    attrTable (.attr j q :: rest) = (q, .attr j q) :: attrTable rest := by
  simp [attrTable, List.filterMap_cons]

theorem attrTable_cons_other (j : Nat) (rest : List SubCmd) :
    attrTable (.other j :: rest) = attrTable rest := by
  simp [attrTable, List.filterMap_cons]

theorem lookup_attrTable_self {ops : List SubCmd} {i : Nat} {p : String}
    (hmem : SubCmd.attr i p ∈ ops)
    (huniq : ∀ c' ∈ ops, c'.propOf = some p → c' = .attr i p) :
    dictLookup p (attrTable ops) = some (.attr i p) := by
  induction ops with
  | nil => simp at hmem
  | cons d rest ih =>
    cases d with
    | attr j q =>
      rw [attrTable_cons_attr]
      by_cases hq : q = p
      · subst hq
        have hd : SubCmd.attr j q = SubCmd.attr i q :=
          huniq (SubCmd.attr j q) (List.mem_cons_self _ _)
            (by simp [SubCmd.propOf])
        simp [dictLookup, hd]
      · simp only [dictLookup, if_neg hq]
        apply ih
        · rcases List.mem_cons.mp hmem with h | h
          · injection h with h₁ h₂; exact absurd h₂.symm hq
          · exact h
        · exact fun c' hc' hp => huniq c' (List.mem_cons_of_mem _ hc') hp
    | other j =>
      rw [attrTable_cons_other]
      apply ih
      · rcases List.mem_cons.mp hmem with h | h
        · exact absurd h (by simp)
        · exact h
      · exact fun c' hc' hp => huniq c' (List.mem_cons_of_mem _ hc') hp

theorem lookup_attrTable_none {ops : List SubCmd} {p : String}
    (h : ∀ c' ∈ ops, c'.propOf ≠ some p) :
    dictLookup p (attrTable ops) = none := by
  induction ops with
  | nil => simp [attrTable, dictLookup]
  | cons d rest ih =>
    cases d with
    | attr j q =>
      have hq : q ≠ p := by
        intro hqp
        exact h (.attr j q) (by simp) (by simp [SubCmd.propOf, hqp])
      rw [attrTable_cons_attr]
      simp only [dictLookup, if_neg hq]
      exact ih (fun c' hc' => h c' (List.mem_cons_of_mem _ hc'))
    | other j =>
      rw [attrTable_cons_other]
      exact ih (fun c' hc' => h c' (List.mem_cons_of_mem _ hc'))

theorem dictPop_attrTable_erase {ops : List SubCmd} {i : Nat} {p : String}
    (h : dictLookup p (attrTable ops) = some (.attr i p)) :
    dictPop p (attrTable ops) = some (attrTable (ops.erase (.attr i p))) := by
  induction ops with
  | nil => simp [attrTable, dictLookup] at h
  | cons d rest ih =>
    cases d with
    | attr j q =>
      by_cases hq : q = p
      · subst hq
        rw [attrTable_cons_attr] at h ⊢
        simp only [dictLookup, if_pos rfl, Option.some.injEq,
          SubCmd.attr.injEq] at h
        have hj : j = i := by simpa using h
        subst hj
        rw [List.erase_cons_head]
        simp [dictPop]
      · have hne : SubCmd.attr j q ≠ SubCmd.attr i p := by
          intro he; injection he with h₁ h₂; exact hq h₂
        rw [attrTable_cons_attr] at h
        simp only [dictLookup, if_neg hq] at h
        rw [List.erase_cons_tail (by simpa using hne), attrTable_cons_attr,
          attrTable_cons_attr]
        simp [dictPop, if_neg hq, ih h]
    | other j =>
      rw [attrTable_cons_other] at h
      rw [List.erase_cons_tail (by simp), attrTable_cons_other,
        attrTable_cons_other]
      exact ih h

theorem attrTable_erase_other (ops : List SubCmd) (j : Nat) :
    attrTable (ops.erase (.other j)) = attrTable ops := by
  induction ops with
  | nil => simp
  | cons d rest ih =>
    by_cases hd : d = .other j
    · subst hd
      rw [List.erase_cons_head, attrTable_cons_other]
    · rw [List.erase_cons_tail (by simpa using hd)]
      cases d with
      | attr k q => rw [attrTable_cons_attr, attrTable_cons_attr, ih]
      | other k => rw [attrTable_cons_other, attrTable_cons_other, ih]

theorem mem_osAdd {c x : SubCmd} {l : List SubCmd} (h : x ∈ osAdd c l) :
    x ∈ l ∨ x = c := by
  unfold osAdd at h
  split at h
  · exact Or.inl h
  · rcases List.mem_append.mp h with h | h
    · exact Or.inl h
    · exact Or.inr (by simpa using h)

theorem addCmd_inSync {st : CommandState} {c : SubCmd}
    (h : inSync st) (hs : safeAdd st c = true) : inSync (addCmd st c) := by
  cases c with
  | other j =>
    simp only [addCmd, inSync, osAdd] at *
    split
    · exact h
    · rw [attrTable_append, h]
      simp [attrTable]
  | attr i p =>
    have huniq : ∀ c' ∈ st.ops, c'.propOf = some p → c' = .attr i p := by
      intro c' hc' hp
      simp only [safeAdd, List.all_eq_true, decide_eq_true_eq] at hs
      exact hs c' hc' hp
    by_cases hmem : (SubCmd.attr i p) ∈ st.ops
    · have hl : dictLookup p st.attrs = some (.attr i p) := by
        rw [h]; exact lookup_attrTable_self hmem huniq
      simp only [addCmd, inSync, osAdd, if_pos hmem]
      rw [dictInsert_lookup_self hl]
      exact h
    · have hnone : dictLookup p st.attrs = none := by
        rw [h]
        apply lookup_attrTable_none
        intro c' hc' hp
        exact hmem (huniq c' hc' hp ▸ hc')
      simp only [addCmd, inSync, osAdd, if_neg hmem]
      rw [dictInsert_lookup_none _ hnone, attrTable_append, h]
      simp [attrTable]

theorem discardCmd_inSync {st st' : CommandState} {c : SubCmd}
    (h : inSync st) (hs : safeDiscard st c = true)
    (hrun : discardCmd st c = some st') : inSync st' := by
  cases c with
  | other j =>
    simp only [discardCmd, Option.some.injEq] at hrun
    subst hrun
    simp only [inSync] at *
    rw [h, attrTable_erase_other]
  | attr i p =>
    simp only [safeDiscard, decide_eq_true_eq] at hs
    have hpop : dictPop p st.attrs =
        some (attrTable (st.ops.erase (.attr i p))) := by
      rw [h]
      rw [h] at hs
      exact dictPop_attrTable_erase hs
    simp only [discardCmd, hpop, Option.map_some', Option.some.injEq] at hrun
    subst hrun
    exact rfl

theorem foldl_addCmd_inSync :
    ∀ (cs : List SubCmd) (st : CommandState), inSync st →
      (∀ c' ∈ st.ops, ∀ c ∈ cs, ∀ p,
        c'.propOf = some p → c.propOf = some p → c' = c) →
      distinctAttrProps cs = true →
      inSync (cs.foldl addCmd st) := by
  intro cs
  induction cs with
  | nil => intro st h _ _; exact h
  | cons c rest ih =>
    intro st h hcross hdist
    simp only [distinctAttrProps, Bool.and_eq_true] at hdist
    obtain ⟨hhead, hrest⟩ := hdist
    have hsafe : safeAdd st c = true := by
      cases c with
      | attr i p =>
        simp only [safeAdd, List.all_eq_true, decide_eq_true_eq]
        intro c' hc' hp
        exact hcross c' hc' _ (by simp) p hp (by simp [SubCmd.propOf])
      | other j => rfl
    simp only [List.foldl_cons]
    apply ih (addCmd st c) (addCmd_inSync h hsafe)
    · intro c' hc' c'' hc'' p hp' hp''
      have hc'mem : c' ∈ st.ops ∨ c' = c := by
        cases c with
        | attr i q => exact mem_osAdd hc'
        | other j => exact mem_osAdd hc'
      rcases hc'mem with hmem | heq
      · exact hcross c' hmem c'' (List.mem_cons_of_mem _ hc'') p hp' hp''
      · subst heq
        cases c' with
        | attr i q =>
          simp only [SubCmd.propOf, Option.some.injEq] at hp'
          subst hp'
          simp only [List.all_eq_true, decide_eq_true_eq] at hhead
          exact (hhead c'' hc'' hp'').symm
        | other j => simp [SubCmd.propOf] at hp'
    · exact hrest

theorem replaceAllCmd_inSync {st : CommandState} {cs : List SubCmd}
    (hdist : distinctAttrProps cs = true) : inSync (replaceAllCmd st cs) := by
  unfold replaceAllCmd
  apply foldl_addCmd_inSync
  · exact rfl
  · intro c' hc'
    simp at hc'
  · exact hdist

theorem runAction_inSync {st st' : CommandState} {a : Action}
    (h : inSync st) (hs : safeAction st a = true)
    (hrun : runAction st a = some st') : inSync st' := by
  cases a with
  | add c =>
    simp only [runAction, Option.some.injEq] at hrun
    subst hrun
    exact addCmd_inSync h hs
  | discard c =>
    exact discardCmd_inSync h hs hrun
  | replaceAll cs =>
    simp only [runAction, Option.some.injEq] at hrun
    subst hrun
    exact replaceAllCmd_inSync hs

theorem runActions_inSync :
    ∀ (acts : List Action) (st st' : CommandState), inSync st →
      safeRun st acts = true → runActions st acts = some st' → inSync st' := by
  intro acts
  induction acts with
  | nil =>
    intro st st' h _ hrun
    simp only [runActions, Option.some.injEq] at hrun
    subst hrun
    exact h
  | cons a rest ih =>
    intro st st' h hsafe hrun
    simp only [safeRun, Bool.and_eq_true] at hsafe
    obtain ⟨ha, hrest⟩ := hsafe
    simp only [runActions] at hrun
    cases hra : runAction st a with
    | none =>
      rw [hra] at hrun hrest
      simp at hrun
    | some st₁ =>
      rw [hra] at hrun hrest
      exact ih st₁ st' (runAction_inSync h ha hra) hrest hrun

end CmdModel

namespace Diff

theorem matrixLe_iff_key (t u : Obj × Obj × ℚ) :
    matrixLe t u ↔
      toLex ((1 : ℚ) - t.2.2, toLex (t.1.name, t.2.1.name))
        ≤ toLex ((1 : ℚ) - u.2.2, toLex (u.1.name, u.2.1.name)) := by
  rw [Prod.Lex.le_iff, Prod.Lex.le_iff]
  unfold matrixLe
  constructor
  · rintro (h | ⟨h1, h2⟩)
    · exact Or.inl (show (1 : ℚ) - t.2.2 < 1 - u.2.2 by linarith)
    · exact Or.inr ⟨show (1 : ℚ) - t.2.2 = 1 - u.2.2 by linarith, h2⟩
  · rintro (h | ⟨h1, h2⟩)
    · have h' : (1 : ℚ) - t.2.2 < 1 - u.2.2 := h
      exact Or.inl (show u.2.2 < t.2.2 by linarith)
    · have h1' : (1 : ℚ) - t.2.2 = 1 - u.2.2 := h1
      exact Or.inr ⟨show u.2.2 = t.2.2 by linarith, h2⟩

instance : IsTotal (Obj × Obj × ℚ) matrixLe :=
  ⟨fun a b => by
    rw [matrixLe_iff_key, matrixLe_iff_key]
    exact le_total _ _⟩

instance : IsTrans (Obj × Obj × ℚ) matrixLe :=
  ⟨fun a b c hab hbc => by
    rw [matrixLe_iff_key] at hab hbc ⊢
    exact le_trans hab hbc⟩

theorem mem_matrix_of_mem_greedy :
    ∀ (m : List (Obj × Obj × ℚ)) (sx sy : List Obj) (e : Obj × ℚ × Obj),
      e ∈ greedy m sx sy → (e.1, e.2.2, e.2.1) ∈ m := by
  intro m
  induction m with
  | nil => intro sx sy e h; simp [greedy] at h
  | cons t rest ih =>
    intro sx sy e h
    obtain ⟨x, y, s⟩ := t
    simp only [greedy] at h
    split at h
    · rcases List.mem_cons.mp h with he | he
      · subst he; simp
      · exact List.mem_cons_of_mem _ (ih _ _ _ he)
    · exact List.mem_cons_of_mem _ (ih _ _ _ h)

theorem greedy_keys_avoid :
    ∀ (m : List (Obj × Obj × ℚ)) (sx sy : List Obj) (e : Obj × ℚ × Obj),
      e ∈ greedy m sx sy → e.1 ∉ sx := by
  intro m
  induction m with
  | nil => intro sx sy e h; simp [greedy] at h
  | cons t rest ih =>
    intro sx sy e h
    obtain ⟨x, y, s⟩ := t
    simp only [greedy] at h
    split at h
    · rename_i hcond
      rcases List.mem_cons.mp h with he | he
      · subst he; exact hcond.1
      · intro hsx
        exact ih _ _ _ he (List.mem_append.mpr (Or.inl hsx))
    · exact ih _ _ _ h

theorem greedy_vals_avoid :
    ∀ (m : List (Obj × Obj × ℚ)) (sx sy : List Obj) (e : Obj × ℚ × Obj),
      e ∈ greedy m sx sy → e.2.2 ∉ sy := by
  intro m
  induction m with
  | nil => intro sx sy e h; simp [greedy] at h
  | cons t rest ih =>
    intro sx sy e h
    obtain ⟨x, y, s⟩ := t
    simp only [greedy] at h
    split at h
    · rename_i hcond
      rcases List.mem_cons.mp h with he | he
      · subst he; exact hcond.2
      · intro hsy
        exact ih _ _ _ he (List.mem_append.mpr (Or.inl hsy))
    · exact ih _ _ _ h

theorem greedy_keys_nodup :
    ∀ (m : List (Obj × Obj × ℚ)) (sx sy : List Obj),
      ((greedy m sx sy).map (fun e => e.1)).Nodup := by
  intro m
  induction m with
  | nil => intro sx sy; simp [greedy]
  | cons t rest ih =>
    intro sx sy
    obtain ⟨x, y, s⟩ := t
    simp only [greedy]
    split
    · simp only [List.map_cons, List.nodup_cons]
      refine ⟨?_, ih _ _⟩
      intro hx
      obtain ⟨e, he, hex⟩ := List.mem_map.mp hx
      exact greedy_keys_avoid _ _ _ e he
        (by rw [hex]; exact List.mem_append.mpr (Or.inr (by simp)))
    · exact ih _ _

theorem greedy_vals_nodup :
    ∀ (m : List (Obj × Obj × ℚ)) (sx sy : List Obj),
      ((greedy m sx sy).map (fun e => e.2.2)).Nodup := by
  intro m
  induction m with
  | nil => intro sx sy; simp [greedy]
  | cons t rest ih =>
    intro sx sy
    obtain ⟨x, y, s⟩ := t
    simp only [greedy]
    split
    · simp only [List.map_cons, List.nodup_cons]
      refine ⟨?_, ih _ _⟩
      intro hy
      obtain ⟨e, he, hey⟩ := List.mem_map.mp hy
      exact greedy_vals_avoid _ _ _ e he
        (by rw [hey]; exact List.mem_append.mpr (Or.inr (by simp)))
    · exact ih _ _

theorem greedy_proj_sublist :
    ∀ (m : List (Obj × Obj × ℚ)) (sx sy : List Obj),
      ((greedy m sx sy).map (fun e => (e.1, e.2.2, e.2.1))).Sublist m := by
  intro m
  induction m with
  | nil => intro sx sy; simp [greedy]
  | cons t rest ih =>
    intro sx sy
    obtain ⟨x, y, s⟩ := t
    simp only [greedy]
    split
    · simpa only [List.map_cons] using List.Sublist.cons₂ _ (ih _ _)
    · exact List.Sublist.cons _ (ih _ _)

theorem cmLookup_eq_of_mem :
    ∀ (cm : List (Obj × ℚ × Obj)),
      ((cm.map (fun e => e.1)).Nodup) →
      ∀ e ∈ cm, cmLookup cm e.1 = some e.2 := by
  intro cm
  induction cm with
  | nil => simp
  | cons h t ih =>
    intro hnd e he
    simp only [List.map_cons, List.nodup_cons] at hnd
    rcases List.mem_cons.mp he with he' | he'
    · subst he'
      simp [cmLookup, List.find?_cons]
    · have hne : (h.1 == e.1) = false := by
        rw [beq_eq_false_iff_ne]
        intro hEq
        exact hnd.1 (hEq ▸ List.mem_map_of_mem _ he')
      simp only [cmLookup, List.find?_cons, hne]
      exact ih hnd.2 e he'

theorem topoStep_perm :
    ∀ (n : Nat) (rem : List Obj), (topoStep n rem).Perm rem := by
  intro n
  induction n with
  | zero => intro rem; simp [topoStep]
  | succ k ih =>
    intro rem
    simp only [topoStep]
    cases hf : rem.find? (topoReady rem) with
    | none => exact List.Perm.refl rem
    | some x =>
      have hx : x ∈ rem := List.mem_of_find?_eq_some hf
      exact ((ih _).cons x).trans (List.perm_cons_erase hx).symm

theorem sortByInheritance_perm (objs : List Obj) :
    (sortByInheritance objs).Perm objs :=
  topoStep_perm _ _

theorem topoStep_pairwise :
    ∀ (n : Nat) (rem : List Obj), topoOk n rem = true →
      (topoStep n rem).Pairwise (fun a b => b.name ∈ a.bases → b = a) := by
  intro n
  induction n with
  | zero =>
    intro rem hok
    simp only [topoOk] at hok
    rw [List.isEmpty_iff.mp hok]
    simp [topoStep]
  | succ k ih =>
    intro rem hok
    simp only [topoOk] at hok
    by_cases hre : rem.isEmpty = true
    · rw [List.isEmpty_iff.mp hre]
      simp only [topoStep, List.find?]
      exact List.Pairwise.nil
    · rw [if_neg hre] at hok
      simp only [topoStep]
      cases hf : rem.find? (topoReady rem) with
      | none => rw [hf] at hok; simp at hok
      | some x =>
        rw [hf] at hok
        refine List.Pairwise.cons ?_ (ih _ hok)
        intro b hb hbase
        have hbrem : b ∈ rem :=
          List.mem_of_mem_erase ((topoStep_perm k _).mem_iff.mp hb)
        have hready : topoReady rem x = true := List.find?_some hf
        unfold topoReady at hready
        rw [Bool.not_eq_true', List.any_eq_false] at hready
        have hb' := hready b hbrem
        by_contra hne
        rw [Bool.and_eq_true] at hb'
        exact hb' ⟨by simpa using hbase, by simpa using hne⟩

theorem mem_filtered_of_mem_fullMatrix {inp : DiffInput} {e : Obj × Obj × ℚ}
    (h : e ∈ fullMatrix inp) :
    e.1 ∈ newFiltered inp ∧ e.2.1 ∈ oldFiltered inp := by
  unfold fullMatrix at h
  obtain ⟨p, hp, hpe⟩ := List.mem_map.mp h
  have hp' : p ∈ productPairs inp :=
    (List.perm_insertionSort (pairLe inp) _).mem_iff.mp hp
  unfold productPairs at hp'
  obtain ⟨x, hx, hxp⟩ := List.mem_flatMap.mp hp'
  obtain ⟨y, hy, hyp⟩ := List.mem_map.mp hxp
  subst hyp
  subst hpe
  exact ⟨hx, hy⟩

theorem mem_filtered_of_mem_cm {inp : DiffInput} {e : Obj × ℚ × Obj}
    (h : e ∈ comparisonMap inp) :
    e.1 ∈ newFiltered inp ∧ e.2.2 ∈ oldFiltered inp := by
  have hm : (e.1, e.2.2, e.2.1) ∈ sortedMatrix inp :=
    mem_matrix_of_mem_greedy _ _ _ _ h
  have hm' : (e.1, e.2.2, e.2.1) ∈ fullMatrix inp :=
    (List.perm_insertionSort matrixLe _).mem_iff.mp hm
  exact mem_filtered_of_mem_fullMatrix hm'

end Diff

open CmdModel CtxModel RootModel Lifecycle Diff in
/-- C1 counterexample: adding two distinct set-attribute commands for the
same attribute name leaves both in `ops` while the `_attrs` table keeps only
the second — `add` replaces only the table entry, not the old sub-command,
so the table does not match the set of set-attribute sub-commands. -/
theorem c1_counterexample :
    CmdModel.runActions CmdModel.initCommand
        [.add (.attr 0 "x"), .add (.attr 1 "x")] =
      some ⟨[.attr 0 "x", .attr 1 "x"], [], [("x", .attr 1 "x")]⟩
    ∧ ¬ CmdModel.inSync
        ⟨[.attr 0 "x", .attr 1 "x"], [], [("x", .attr 1 "x")]⟩ := by
  exact ⟨by decide, by decide⟩

/-- C1 (amended): after any sequence of `add`/`discard`/`replace_all` calls
in which every added set-attribute command targets an attribute with no
distinct live setter in `ops` and every discarded set-attribute command is
the current table entry for its attribute, the `_attrs` table exactly
matches the set-attribute sub-commands present in `ops` (an unrestricted
`add` only replaces the table entry and leaves the superseded setter in
`ops`; an unrestricted `discard` can drop another setter's entry or raise
`KeyError`). -/
theorem c1_attr_table_sync (acts : List CmdModel.Action)
    (st : CmdModel.CommandState)
    (hsafe : CmdModel.safeRun CmdModel.initCommand acts = true)
    (hrun : CmdModel.runActions CmdModel.initCommand acts = some st) :
    st.attrs = CmdModel.attrTable st.ops :=
  CmdModel.runActions_inSync acts CmdModel.initCommand st rfl hsafe hrun

/-- C1 witness: a concrete safe `add`/`discard`/`replace_all` sequence whose
final attribute table matches its `ops`. -/
theorem c1_attr_table_sync_witness :
    CmdModel.CommandState.attrs ⟨[.attr 2 "y"], [], [("y", .attr 2 "y")]⟩ =
      CmdModel.attrTable
        (CmdModel.CommandState.ops ⟨[.attr 2 "y"], [], [("y", .attr 2 "y")]⟩) :=
  c1_attr_table_sync
    [.add (.attr 0 "x"), .add (.other 1), .discard (.attr 0 "x"),
      .replaceAll [.attr 2 "y"]]
    ⟨[.attr 2 "y"], [], [("y", .attr 2 "y")]⟩ (by decide) (by decide)

/-- C2 counterexample: with old = {D (name 30) deriving from B (name 31)}
and new = ∅, `delta_objects` emits Delete B *before* Delete D: bases are
deleted first — the same topological orientation as creation/alteration —
not after derived classes as the claim states. -/
theorem c2_counterexample :
    Diff.deltaObjects Diff.c2cInp =
        [Diff.DeltaCmd.deleteCmd 31, Diff.DeltaCmd.deleteCmd 30]
    ∧ (31 : Nat) ∈ Diff.Obj.bases ⟨0, 30, 1, [31]⟩
    ∧ List.indexOf (Diff.DeltaCmd.deleteCmd 31) (Diff.deltaObjects Diff.c2cInp)
        < List.indexOf (Diff.DeltaCmd.deleteCmd 30)
            (Diff.deltaObjects Diff.c2cInp) := by
  exact ⟨by decide, by decide, by decide⟩

/-- C2 (amended): for inheritance-capable classes the Delete commands are
ordered by `_sort_by_inheritance` in the same orientation used for
creation/alteration — base classes before derived classes (whenever the
topological sort completes without the `allow_unresolved` fallback, no base
of an object follows it in the order). -/
theorem c2_delete_inheritance_order (inp : Diff.DiffInput)
    (hinh : inp.inheriting = true)
    (hok : Diff.topoOk (Diff.deletedList inp).length (Diff.deletedList inp)
      = true) :
    Diff.deletedOrder inp = Diff.sortByInheritance (Diff.deletedList inp)
    ∧ (Diff.deletedOrder inp).Pairwise
        (fun a b => b.name ∈ a.bases → b = a) := by
  have h1 : Diff.deletedOrder inp
      = Diff.sortByInheritance (Diff.deletedList inp) := by
    unfold Diff.deletedOrder
    rw [hinh]
    simp
  exact ⟨h1, by rw [h1]; exact Diff.topoStep_pairwise _ _ hok⟩

/-- C2 witness: on the concrete two-object input the delete order is the
inheritance order and no base follows a derived class. -/
theorem c2_delete_order_witness :
    Diff.deletedOrder Diff.c2cInp
      = Diff.sortByInheritance (Diff.deletedList Diff.c2cInp)
    ∧ (Diff.deletedOrder Diff.c2cInp).Pairwise
        (fun a b => b.name ∈ a.bases → b = a) :=
  c2_delete_inheritance_order Diff.c2cInp rfl (by decide)

open Diff in
/-- C3: a matched pair in `delta_objects` becomes an Alter command iff its
similarity `s` satisfies `0.6 < s < 1.0` (both bounds strictly excluded);
a pair scoring exactly 0.6 instead yields an independent Create for the new
object and a Delete for the old object, and a pair scoring exactly 1.0
never reaches the alter branch. -/
theorem c3_alter_strictly_between (inp : DiffInput) (x y : Obj) (s : ℚ)
    (hmem : (x, s, y) ∈ comparisonMap inp)
    (hnew : ((newFiltered inp).map Obj.name).Nodup)
    (hg : inp.guidance = none) :
    (DeltaCmd.alterCmd y.name x.name ∈ altersOf inp
      ↔ (simThreshold < s ∧ s < 1))
    ∧ (s = simThreshold →
        DeltaCmd.createCmd x.name ∈ createdOf inp
          ∧ DeltaCmd.deleteCmd y.name ∈ deletedOf inp)
    ∧ (s = 1 → DeltaCmd.alterCmd y.name x.name ∉ altersOf inp) := by
  have hkeys : ((comparisonMap inp).map (fun e => e.1)).Nodup :=
    greedy_keys_nodup (sortedMatrix inp) [] []
  have hvals : ((comparisonMap inp).map (fun e => e.2.2)).Nodup :=
    greedy_vals_nodup (sortedMatrix inp) [] []
  have hfil := mem_filtered_of_mem_cm (e := (x, s, y)) hmem
  have hx_new : x ∈ newFiltered inp := hfil.1
  have hy_old : y ∈ oldFiltered inp := hfil.2
  have hlook : cmLookup (comparisonMap inp) x = some (s, y) :=
    cmLookup_eq_of_mem _ hkeys (x, s, y) hmem
  have hxkeys : x ∈ (comparisonMap inp).map (fun e => e.1) :=
    List.mem_map_of_mem _ hmem
  have hxorder : x ∈ orderX inp := by
    unfold orderX
    split
    · exact (sortByInheritance_perm _).mem_iff.mpr hxkeys
    · exact hxkeys
  have hiff : DeltaCmd.alterCmd y.name x.name ∈ altersOf inp
      ↔ (simThreshold < s ∧ s < 1) := by
    constructor
    · intro halter
      unfold altersOf at halter
      obtain ⟨x', hx', hfx'⟩ := List.mem_filterMap.mp halter
      have hx'keys : x' ∈ (comparisonMap inp).map (fun e => e.1) := by
        unfold orderX at hx'
        split at hx'
        · exact (sortByInheritance_perm _).mem_iff.mp hx'
        · exact hx'
      obtain ⟨e', he', hex'⟩ := List.mem_map.mp hx'keys
      obtain ⟨x'', s', y'⟩ := e'
      simp only at hex'
      subst hex'
      have hlook' : cmLookup (comparisonMap inp) x'' = some (s', y') :=
        cmLookup_eq_of_mem _ hkeys (x'', s', y') he'
      rw [hlook'] at hfx'
      simp only at hfx'
      by_cases hcond : simThreshold < s' ∧ s' < 1
      · rw [if_pos hcond] at hfx'
        simp only [Option.some.injEq, DeltaCmd.alterCmd.injEq] at hfx'
        have hx'new : x'' ∈ newFiltered inp :=
          (mem_filtered_of_mem_cm he').1
        have hxx : x'' = x :=
          List.inj_on_of_nodup_map hnew hx'new hx_new hfx'.2
        subst hxx
        rw [hlook] at hlook'
        simp only [Option.some.injEq, Prod.mk.injEq] at hlook'
        rw [hlook'.1]
        exact hcond
      · rw [if_neg hcond] at hfx'
        exact absurd hfx' (by simp)
    · rintro ⟨h1, h2⟩
      unfold altersOf
      apply List.mem_filterMap.mpr
      refine ⟨x, hxorder, ?_⟩
      simp only [hlook]
      rw [if_pos ⟨h1, h2⟩]
  refine ⟨hiff, ?_, ?_⟩
  · intro hs
    subst hs
    constructor
    · have hnotNew : matchedNewAbove inp x = false := by
        unfold matchedNewAbove
        rw [List.any_eq_false]
        intro e he
        obtain ⟨e1, s1, y1⟩ := e
        by_cases hex : e1 = x
        · subst hex
          have h1 := cmLookup_eq_of_mem _ hkeys (e1, s1, y1) he
          rw [hlook] at h1
          simp only [Option.some.injEq, Prod.mk.injEq] at h1
          rw [← h1.1]
          simp [lt_irrefl]
        · simp [hex]
      have hxc : x ∈ createdList inp :=
        List.mem_filter.mpr ⟨hx_new, by rw [hnotNew]; rfl⟩
      unfold createdOf
      apply List.mem_filterMap.mpr
      refine ⟨x, hxc, ?_⟩
      simp only [hg]
    · have hnotOld : matchedOldAbove inp y = false := by
        unfold matchedOldAbove
        rw [List.any_eq_false]
        intro e he
        obtain ⟨e1, s1, y1⟩ := e
        by_cases hey : y1 = y
        · subst hey
          have he2 : ((e1, s1, y1) : Obj × ℚ × Obj) = (x, simThreshold, y1) :=
            List.inj_on_of_nodup_map hvals he hmem rfl
          simp only [Prod.mk.injEq] at he2
          rw [he2.2.1]
          simp [lt_irrefl]
        · simp [hey]
      have hyd : y ∈ deletedList inp :=
        List.mem_filter.mpr ⟨hy_old, by rw [hnotOld]; rfl⟩
      have hyord : y ∈ deletedOrder inp := by
        unfold deletedOrder
        split
        · exact (sortByInheritance_perm _).mem_iff.mpr hyd
        · exact hyd
      unfold deletedOf
      apply List.mem_filterMap.mpr
      refine ⟨y, hyord, ?_⟩
      simp only [hg]
  · intro hs1 hmem'
    have hb := (hiff.mp hmem').2
    rw [hs1] at hb
    exact lt_irrefl 1 hb

open Diff in
/-- C3 witness: a concrete matched pair scoring exactly the 0.6 threshold
does not become an Alter and yields an independent Create and Delete. -/
theorem c3_witness :
    (DeltaCmd.alterCmd c3wY.name c3wX.name ∈ altersOf c3wInp
      ↔ (simThreshold < simThreshold ∧ simThreshold < 1))
    ∧ (simThreshold = simThreshold →
        DeltaCmd.createCmd c3wX.name ∈ createdOf c3wInp
          ∧ DeltaCmd.deleteCmd c3wY.name ∈ deletedOf c3wInp)
    ∧ (simThreshold = 1 →
        DeltaCmd.alterCmd c3wY.name c3wX.name ∉ altersOf c3wInp) :=
  c3_alter_strictly_between c3wInp c3wX c3wY simThreshold (by decide)
    (by decide) rfl

open Diff in
/-- C4: `delta_objects` is deterministic (a pure function of its inputs); the
matrix is sorted descending by score with ties broken by ascending
(new name, old name) — i.e. ascending in the key `(1 - s, new name, old
name)` — and the greedy matching walks that sorted order (the comparison map
is a sublist of the sorted matrix) claiming each new-side and old-side
object at most once. -/
theorem c4_delta_objects_deterministic (inp : DiffInput) :
    deltaObjects inp = deltaObjects inp
    ∧ (sortedMatrix inp).Perm (fullMatrix inp)
    ∧ List.Sorted matrixLe (sortedMatrix inp)
    ∧ ((comparisonMap inp).map
        (fun e => (e.1, e.2.2, e.2.1))).Sublist (sortedMatrix inp)
    ∧ ((comparisonMap inp).map (fun e => e.1)).Nodup
    ∧ ((comparisonMap inp).map (fun e => e.2.2)).Nodup :=
  ⟨rfl, List.perm_insertionSort _ _, List.sorted_insertionSort _ _,
    greedy_proj_sublist _ _ _, greedy_keys_nodup _ _ _,
    greedy_vals_nodup _ _ _⟩

open Lifecycle in
/-- C5 counterexample: a Create command with `if_not_exists=true` built from
a DDL node without `sdl_alter_if_exists` whose name already resolves does
NOT delegate to an Alter — dispatch keeps the Create class — and `apply`
merely discards the command from its parent and returns the schema
unchanged. -/
theorem c5_counterexample :
    commandForAstNode ⟨false, true⟩ ⟨[("default::Foo", 7)], []⟩ "default::Foo"
        = CmdClass.createClass
    ∧ CmdClass.createClass ≠ CmdClass.alterClass
    ∧ createApply id
        ⟨0, "default::Foo", ifNotExistsFromAst ⟨false, true⟩, false⟩
        ⟨[("default::Foo", 7)], []⟩ (some [0, 5])
        = (⟨[("default::Foo", 7)], []⟩, some [5]) := by
  exact ⟨by decide, by decide, by decide⟩

open Lifecycle in
/-- C5 (amended): at apply time a non-canonical Create with
`if_not_exists=true` whose name resolves short-circuits — it is discarded
from its parent (when a parent context exists) and the schema is returned
unchanged, with no Alter performed; delegation to the Alter class happens
only at AST dispatch, for nodes with `sdl_alter_if_exists` set and a
resolving name. -/
theorem c5_create_if_not_exists (doCreate : Schema → Schema)
    (cmd : CreateCmd) (schema : Schema) (pops : List Nat)
    (ast : CreateAstNode) (cn : String)
    (h1 : cmd.ifNotExists = true)
    (h2 : (schema.getByName cmd.classname).isSome = true)
    (h3 : cmd.canonical = false) :
    createApply doCreate cmd schema (some pops)
        = (schema, some (pops.erase cmd.cid))
    ∧ (commandForAstNode ast schema cn = CmdClass.alterClass
        ↔ (ast.sdlAlterIfExists = true
            ∧ (schema.getByName cn).isSome = true)) := by
  constructor
  · unfold createApply
    rw [if_pos ⟨by rw [h1], h2⟩]
    simp [h3]
  · unfold commandForAstNode
    by_cases hc : ast.sdlAlterIfExists = true
        ∧ (schema.getByName cn).isSome = true
    · rw [if_pos ⟨hc.1, hc.2⟩]
      simp [hc]
    · rw [if_neg (by exact fun h => hc ⟨h.1, h.2⟩)]
      constructor
      · intro h
        exact absurd h (by decide)
      · intro h
        exact absurd h hc

open Lifecycle in
/-- C5 witness: a concrete non-canonical Create with `if_not_exists` on an
existing name is discarded from its parent and leaves the schema unchanged,
and dispatch delegates to Alter exactly for `sdl_alter_if_exists` nodes with
a resolving name. -/
theorem c5_witness :
    createApply id ⟨0, "default::Foo", true, false⟩
        ⟨[("default::Foo", 7)], []⟩ (some [0, 5])
        = (⟨[("default::Foo", 7)], []⟩, some [5])
    ∧ (commandForAstNode ⟨true, false⟩ ⟨[("default::Foo", 7)], []⟩
          "default::Foo" = CmdClass.alterClass
        ↔ ((true : Bool) = true
            ∧ (Schema.getByName ⟨[("default::Foo", 7)], []⟩
                "default::Foo").isSome = true)) :=
  c5_create_if_not_exists id ⟨0, "default::Foo", true, false⟩
    ⟨[("default::Foo", 7)], []⟩ [0, 5] ⟨true, false⟩ "default::Foo"
    rfl (by decide) rfl

open Lifecycle in
/-- C6 counterexample: with a canonical context (dependency verification NOT
disabled), `_delete_finalize` succeeds and removes the object even though a
blocking referrer (object 2, not itself being deleted) exists — the claim
omits the canonical exemption of delta.py:2575. -/
theorem c6_counterexample :
    Schema.getReferrers ⟨[("m::A", 1), ("m::B", 2)], [(2, 1)]⟩ 1 = [2]
    ∧ deleteFinalize ⟨true, false, []⟩
        ⟨[("m::A", 1), ("m::B", 2)], [(2, 1)]⟩ 1 (fun _ => true)
        = Except.ok ⟨[("m::B", 2)], [(2, 1)]⟩ := by
  exact ⟨by decide, by decide⟩

open Lifecycle in
/-- C6 (amended): unless dependency verification is disabled/suspended *or
the context is canonical*, `_delete_finalize` fails with a dependency error
enumerating every referrer that is not being deleted and is a blocking
reference; with no such referrer (or under any exemption) the object is
removed from the schema. -/
theorem c6_delete_finalize (ctx ctx' : DelCtx) (schema : Schema)
    (scls : Nat) (isBlocking : Nat → Bool)
    (hc : ctx.canonical = false) (hd : ctx.disableDepVerification = false)
    (h' : ctx'.canonical = true ∨ ctx'.disableDepVerification = true) :
    ((schema.getReferrers scls).filter
        (fun r => !(ctx.deletingIds.contains r) && isBlocking r) ≠ [] →
      deleteFinalize ctx schema scls isBlocking =
        Except.error ((schema.getReferrers scls).filter
          (fun r => !(ctx.deletingIds.contains r) && isBlocking r)))
    ∧ ((schema.getReferrers scls).filter
        (fun r => !(ctx.deletingIds.contains r) && isBlocking r) = [] →
      deleteFinalize ctx schema scls isBlocking =
        Except.ok (schema.deleteObj scls))
    ∧ deleteFinalize ctx' schema scls isBlocking =
        Except.ok (schema.deleteObj scls) := by
  have hb : blockingRefs ctx schema scls isBlocking
      = (schema.getReferrers scls).filter
          (fun r => !(ctx.deletingIds.contains r) && isBlocking r) := by
    unfold blockingRefs
    rw [if_pos ⟨by simp [hc], by simp [hd]⟩]
  have hb' : blockingRefs ctx' schema scls isBlocking = [] := by
    unfold blockingRefs
    rw [if_neg (by rcases h' with h' | h' <;> simp [h'])]
  refine ⟨?_, ?_, ?_⟩
  · intro hne
    unfold deleteFinalize
    rw [hb]
    rw [if_neg (by simpa [List.isEmpty_iff] using hne)]
  · intro he
    unfold deleteFinalize
    rw [hb, he]
    rfl
  · unfold deleteFinalize
    rw [hb']
    rfl

open Lifecycle in
/-- C6 witness: with verification enabled and two blocking referrers (2 and
3), the finalize step fails with an error enumerating both. -/
theorem c6_witness :
    deleteFinalize ⟨false, false, []⟩ ⟨[("m::A", 1)], [(2, 1), (3, 1)]⟩ 1
        (fun _ => true)
      = Except.error [2, 3] :=
  (c6_delete_finalize ⟨false, false, []⟩ ⟨true, false, []⟩
    ⟨[("m::A", 1)], [(2, 1), (3, 1)]⟩ 1 (fun _ => true)
    rfl rfl (Or.inl rfl)).1 (by decide)

open Lifecycle in
/-- C7: applying a non-canonical Delete with `if_unused=true` to an object
that has referrers discards the command from its parent, returns the schema
unchanged, and raises no error. -/
theorem c7_delete_if_unused (doDelete : Schema → Option Schema)
    (cmd : DeleteCmd) (schema : Schema) (pops : List Nat) (scls : Nat)
    (h1 : cmd.canonical = false) (h2 : cmd.ifUnused = true)
    (h3 : schema.getByName cmd.classname = some scls)
    (h4 : (schema.getReferrers scls).isEmpty = false) :
    deleteApply doDelete cmd schema (some pops)
      = some (schema, some (pops.erase cmd.cid)) := by
  unfold deleteApply
  rw [h3]
  dsimp only
  rw [if_pos ⟨by simp [h1], by rw [h2], by simp [h4]⟩]

open Lifecycle in
/-- C7 witness: a concrete non-canonical `if_unused` Delete on a referenced
object is discarded from its parent, schema unchanged, no error. -/
theorem c7_witness :
    deleteApply (fun s => some s) ⟨9, "m::X", true, false⟩
        ⟨[("m::X", 4)], [(5, 4)]⟩ (some [9, 1])
      = some (⟨[("m::X", 4)], [(5, 4)]⟩, some [1]) :=
  c7_delete_if_unused (fun s => some s) ⟨9, "m::X", true, false⟩
    ⟨[("m::X", 4)], [(5, 4)]⟩ [9, 1] 4 rfl rfl (by decide) (by decide)

open Lifecycle in
/-- C8: the rename cascade is computed at most once per command — after one
(non-canonical) invocation of the guarded cascade construction, the
`('renamecanon', command)` key is in the context value store, and a second
invocation for the same command produces no commands and leaves the store
unchanged; `_canonicalize` always records the guard key. -/
theorem c8_rename_cascade_once (cascade cascade' : List Nat)
    (vals : List (String × Nat)) (cmd : Nat) (b : Bool) :
    renameBeginCascade cascade'
        (renameBeginCascade cascade vals cmd false).2 cmd b
      = ([], (renameBeginCascade cascade vals cmd false).2)
    ∧ getValueB (renameCanonicalize cascade vals cmd).2
        ("renamecanon", cmd) = true := by
  have hstore : ∀ (c : List Nat) (v : List (String × Nat)),
      getValueB (renameCanonicalize c v cmd).2 ("renamecanon", cmd) = true := by
    intro c v
    simp [renameCanonicalize, storeValue, getValueB]
  have hset : getValueB (renameBeginCascade cascade vals cmd false).2
      ("renamecanon", cmd) = true := by
    by_cases hg : getValueB vals ("renamecanon", cmd) = true
    · simp [renameBeginCascade, hg]
    · simp only [renameBeginCascade, Bool.not_eq_true] at hg ⊢
      rw [if_pos (by decide), if_pos (by simp [hg])]
      exact hstore _ _
  refine ⟨?_, hstore _ _⟩
  generalize hS : (renameBeginCascade cascade vals cmd false).2 = S at hset ⊢
  unfold renameBeginCascade
  cases b
  · rw [if_pos (by simp), if_neg (by simp [hset])]
  · rw [if_neg (by simp)]

open CtxModel in
/-- C9: `CommandContext.in_deletion` with the default `offset=0` returns
`False` for every stack content — `stack[:-0]` is always the empty slice —
while for `offset > 0` it scans all frames except the innermost `offset`
ones. -/
theorem c9_in_deletion_offset (stack : List Frame) (offset : Nat)
    (hoff : 0 < offset) :
    inDeletion stack 0 = false
    ∧ inDeletion stack offset
        = (stack.take (stack.length - offset)).any Frame.isDelete := by
  constructor
  · rfl
  · unfold inDeletion sliceDropLast
    rw [if_neg (Nat.pos_iff_ne_zero.mp hoff)]

open CtxModel in
/-- C9 witness: on a stack whose outermost frame is a Delete, `in_deletion`
with offset 0 is still `False`, and offset 1 scans all but the innermost
frame. -/
theorem c9_witness :
    inDeletion [Frame.deleteOp 0, Frame.otherOp 1] 0 = false
    ∧ inDeletion [Frame.deleteOp 0, Frame.otherOp 1] 1
        = ([Frame.deleteOp 0, Frame.otherOp 1].take
            ([Frame.deleteOp 0, Frame.otherOp 1].length - 1)).any
            Frame.isDelete :=
  c9_in_deletion_offset [Frame.deleteOp 0, Frame.otherOp 1] 1 (by decide)

open RootModel in
/-- C10: `DeltaRoot.apply` does not apply its sub-commands in plain
insertion order — it folds the schema through all CreateModule
sub-commands, then all AlterModule sub-commands, then every remaining
sub-command except DeleteCollectionType in insertion order, and finally all
DeleteCollectionType sub-commands (witnessed by a root whose phased order
differs from its insertion order). -/
theorem c10_delta_root_phase_order {S : Type} (interp : DOp → S → S)
    (r : DeltaRootState) (s : S) :
    deltaRootApply interp r s
      = (applyOrder r).foldl (fun sc op => interp op sc) s
    ∧ applyOrder exampleRoot ≠ subcommands exampleRoot := by
  constructor
  · unfold deltaRootApply applyOrder
    simp [List.foldl_append]
  · decide
